import Mathlib

/-!
Shallow embedding of the boolean-algebra evaluator pipeline
(src/tokenizer.rs, src/ast.rs, src/evaluator.rs) and proofs about it.

Modelling conventions:
- Rust machine integers (usize) are modelled as Nat; the bit operations
  used by the source (shift left, bitwise and) are modelled with the
  corresponding Nat operations.
- Fallible Rust functions returning Result are modelled with Except.
- Rust panics are modelled as explicit error values distinct from the
  ordinary Err results: EvalPanic distinguishes the two panic sites of
  the evaluator, and TokenizeFailure.charBoundaryPanic marks the byte
  slice panic of get_char_slice in the tokenizer.
- Loops of the recursive-descent parser and the breadth-first identifier
  collection are modelled with an explicit fuel argument that is always
  called with a fuel value that provably dominates the number of
  iterations the source performs, so that the embedding stays executable
  by kernel reduction.  The fuel-exhaustion branches coincide with the
  behaviour of the source on every reachable state.
-/

/-- Token type of src/tokenizer.rs. -/
inductive Token where
  | And
  | Or
  | Not
  | Xor
  | Equal
  | GroupOpen
  | GroupClose
  | ConstTrue
  | ConstFalse
  | Identifier (c : Char)
deriving DecidableEq, Repr

/-- AST node type of src/ast.rs. -/
inductive Node where
  | Const (b : Bool)
  | Identifier (c : Char)
  | SingleOp (op : Token) (operand : Node)
  | DoubleOp (op : Token) (left : Node) (right : Node)
  | Group (inner : Node)
deriving DecidableEq, Repr

/-- The constant VALID_IDENTIFIERS of src/tokenizer.rs, as a character list. -/
def validIdentifiers : List Char := "abcdefghijklmnopqrstuvwxyz".toList

/-- The apostrophe character used by the diagnostic format strings. -/
def quoteChar : Char := Char.ofNat 39

/-- The error string built by the tokenizer when it rejects the character
c found at zero-based character index k of src.  At that point the Rust
index variable i has already been incremented to k + 1, so the source
prints pos i + 1 = k + 2 and a caret line of i - 1 = k spaces. -/
def invalidCharMsg (src : String) (c : Char) (k : Nat) : String :=
  "Invalid character " ++ String.singleton quoteChar ++ String.singleton c
    ++ String.singleton quoteChar ++ " at pos " ++ toString (k + 2)
    ++ "\n\n" ++ src ++ "\n" ++ String.mk (List.replicate k ' ') ++ "^^^" ++ "\n"

/-- The two failure modes of tokenize in src/tokenizer.rs: the ordinary
Err return carrying the diagnostic string, and the panic raised inside
get_char_slice when the byte slice end start_byte..=end_byte falls on a
non-boundary byte.  In the default arm end_byte is the byte offset of the
start of the final character of the whole source, so the slice panics
exactly when that final character is multi-byte. -/
inductive TokenizeFailure where
  | err (msg : String)
  | charBoundaryPanic
deriving DecidableEq, Repr

/-- The loop of tokenize in src/tokenizer.rs.  The remaining input is the
character suffix starting at zero-based character index k of src.
The default arm first calls get_char_slice on the suffix running to the
end of the source: its None branch is unreachable (the slice is requested
with length exactly to the end of the string), but the byte slice inside
it panics when the final character of the source, which is the last
character of the nonempty remaining suffix, occupies more than one UTF-8
byte; only past that point is the returned suffix, which is exactly the
remaining list, examined for the keyword prefixes.
The fuel argument only serves structural recursion: every iteration of the
source loop consumes at least one character, so calling with fuel equal to
the length of the remaining input (as tokenize below does) never reaches
the fuel-exhaustion branch on a nonempty remainder, and on an empty
remainder that branch returns the same value as the empty case. -/
def tokenizeGo (src : String) (allowIdentifiers : Bool) :
    Nat → List Char → Nat → Except TokenizeFailure (List Token)
  | 0, _, _ => .ok []
  | _ + 1, [], _ => .ok []
  | fuel + 1, c :: rest, k =>
    if c = ' ' then tokenizeGo src allowIdentifiers fuel rest (k + 1)
    else if c = '(' then
      (tokenizeGo src allowIdentifiers fuel rest (k + 1)).map (Token.GroupOpen :: ·)
    else if c = ')' then
      (tokenizeGo src allowIdentifiers fuel rest (k + 1)).map (Token.GroupClose :: ·)
    else if c = '&' then
      (tokenizeGo src allowIdentifiers fuel rest (k + 1)).map (Token.And :: ·)
    else if c = '|' then
      (tokenizeGo src allowIdentifiers fuel rest (k + 1)).map (Token.Or :: ·)
    else if c = '^' then
      (tokenizeGo src allowIdentifiers fuel rest (k + 1)).map (Token.Xor :: ·)
    else if c = '!' then
      (tokenizeGo src allowIdentifiers fuel rest (k + 1)).map (Token.Not :: ·)
    else if c = '=' then
      (tokenizeGo src allowIdentifiers fuel rest (k + 1)).map (Token.Equal :: ·)
    else if c = '1' then
      (tokenizeGo src allowIdentifiers fuel rest (k + 1)).map (Token.ConstTrue :: ·)
    else if c = '0' then
      (tokenizeGo src allowIdentifiers fuel rest (k + 1)).map (Token.ConstFalse :: ·)
    else if (rest.getLastD c).utf8Size ≠ 1 then
      .error .charBoundaryPanic
    else if "true".toList.isPrefixOf (c :: rest) then
      (tokenizeGo src allowIdentifiers fuel (rest.drop 3) (k + 4)).map (Token.ConstTrue :: ·)
    else if "false".toList.isPrefixOf (c :: rest) then
      (tokenizeGo src allowIdentifiers fuel (rest.drop 4) (k + 5)).map (Token.ConstFalse :: ·)
    else if validIdentifiers.contains c && allowIdentifiers then
      (tokenizeGo src allowIdentifiers fuel rest (k + 1)).map (Token.Identifier c :: ·)
    else
      .error (.err (invalidCharMsg src c k))

/-- tokenize of src/tokenizer.rs. -/
def tokenize (str : String) (allowIdentifiers : Bool) :
    Except TokenizeFailure (List Token) :=
  tokenizeGo str allowIdentifiers str.toList.length str.toList 0

instance {ε α : Type} [DecidableEq ε] [DecidableEq α] : DecidableEq (Except ε α) :=
  fun a b =>
    match a, b with
    | .ok x, .ok y => if h : x = y then isTrue (by rw [h]) else isFalse (by simp [h])
    | .error e, .error f => if h : e = f then isTrue (by rw [h]) else isFalse (by simp [h])
    | .ok _, .error _ => isFalse (by simp)
    | .error _, .ok _ => isFalse (by simp)

/-! ## Parser (src/ast.rs)

The Rust Parser owns a token vector and a cursor; the embedding passes the
remaining token list explicitly.  Error strings of the parser are
abstracted to fixed messages (no claim depends on their content); the
success and failure behaviour is modelled exactly.  The recursion through
parenthesized groups is broken with a fuel argument counting the allowed
group-nesting depth; Parser.parse supplies one more unit of fuel than
there are tokens, which dominates any reachable nesting depth because each
nesting level consumes a GroupOpen token. -/

/-- Result of one parsing level: the parsed node and the remaining tokens. -/
abbrev PRes := Except String (Node × List Token)

abbrev ParserFn := List Token → PRes

/-- parse_factor of src/ast.rs, parameterized by the function used for the
content of a parenthesized group (parse_eq in the source). -/
def parseFactor (pEq : ParserFn) : ParserFn := fun t =>
  match t with
  | Token.Identifier c :: rest => .ok (Node.Identifier c, rest)
  | Token.ConstTrue :: rest => .ok (Node.Const true, rest)
  | Token.ConstFalse :: rest => .ok (Node.Const false, rest)
  | Token.GroupOpen :: rest =>
    match pEq rest with
    | .ok (inner, Token.GroupClose :: rest2) => .ok (Node.Group inner, rest2)
    | .ok (_, _) => .error "unterminated group"
    | .error e => .error e
  | _ => .error "unexpected token in factor position"

/-- parse_not of src/ast.rs: a single leading NOT token binds one factor;
without a leading NOT the factor is parsed directly. -/
def parseNotLevel (pEq : ParserFn) : ParserFn := fun t =>
  match t with
  | Token.Not :: rest =>
    match parseFactor pEq rest with
    | .ok (operand, rest2) => .ok (Node.SingleOp Token.Not operand, rest2)
    | .error e => .error e
  | _ => parseFactor pEq t

/-- The left-folding loop shared by parse_and, parse_or, parse_xor and
parse_eq of src/ast.rs: while the next token equals opTok, consume it,
parse the next operand with sub, and fold into a left-leaning DoubleOp.
The fuel argument only serves structural recursion: every iteration
consumes at least the operator token, so a call with fuel equal to the
length of the remaining tokens (as binLevel makes) never reaches the
fuel-exhaustion branch with a nonempty remainder, and on an empty
remainder that branch returns the same value as the empty case. -/
def binOpLoop (opTok : Token) (sub : ParserFn) :
    Nat → Node → List Token → PRes
  | 0, left, rest => .ok (left, rest)
  | _ + 1, left, [] => .ok (left, [])
  | fuel + 1, left, tok :: rest1 =>
    if tok = opTok then
      match sub rest1 with
      | .ok (right, rest2) =>
        binOpLoop opTok sub fuel (Node.DoubleOp tok left right) rest2
      | .error e => .error e
    else .ok (left, tok :: rest1)

/-- One binary-operator precedence level of src/ast.rs: parse the first
operand with sub, then fold further operands with binOpLoop. -/
def binLevel (opTok : Token) (sub : ParserFn) : ParserFn := fun t =>
  match sub t with
  | .ok (left, rest) => binOpLoop opTok sub rest.length left rest
  | .error e => .error e

/-- parse_and of src/ast.rs. -/
def parseAnd (pEq : ParserFn) : ParserFn := binLevel Token.And (parseNotLevel pEq)

/-- parse_or of src/ast.rs. -/
def parseOr (pEq : ParserFn) : ParserFn := binLevel Token.Or (parseAnd pEq)

/-- parse_xor of src/ast.rs. -/
def parseXor (pEq : ParserFn) : ParserFn := binLevel Token.Xor (parseOr pEq)

/-- parse_eq of src/ast.rs, parameterized by the group-content function. -/
def parseEqLevel (pEq : ParserFn) : ParserFn := binLevel Token.Equal (parseXor pEq)

/-- The mutual knot parse_eq -> ... -> parse_factor -> parse_eq of
src/ast.rs, unrolled on the group-nesting fuel. -/
def parseEqFuel : Nat → ParserFn
  | 0 => fun _ => .error "group nesting exceeds token count"
  | n + 1 => parseEqLevel (parseEqFuel n)

/-- Parser::parse of src/ast.rs: runs parse_eq on the whole token list and
returns the parsed node.  The source performs no leftover-token check, so
remaining tokens are discarded exactly as in the source. -/
def Parser.parse (tokens : List Token) : Except String Node :=
  match parseEqFuel (tokens.length + 1) tokens with
  | .ok (n, _) => .ok n
  | .error e => .error e

/-! ## Evaluator (src/evaluator.rs) -/

/-- Number of constructors of a node tree; measures the breadth-first
identifier-collection work of calc_ident_bit_index. -/
def nodeSize : Node → Nat
  | .Const _ => 1
  | .Identifier _ => 1
  | .SingleOp _ operand => 1 + nodeSize operand
  | .DoubleOp _ left right => 1 + nodeSize left + nodeSize right
  | .Group g => 1 + nodeSize g

/-- Total size of the nodes still in the breadth-first queue. -/
def queueSize (q : List Node) : Nat := (q.map nodeSize).sum

/-- The breadth-first identifier-collection loop of calc_ident_bit_index
in src/evaluator.rs: pop the queue front, push children at the back, and
append each identifier character not yet collected.  The fuel argument
only serves structural recursion: every iteration removes one node whose
size exceeds the sizes it adds, so queueSize decreases by at least one
per iteration; a call with fuel equal to queueSize (as collectIdents
makes) reaches fuel zero only with an empty queue, where the exhaustion
branch returns the same accumulator as the empty-queue case. -/
def collectAux : Nat → List Node → List Char → List Char
  | 0, _, acc => acc
  | _ + 1, [], acc => acc
  | fuel + 1, n :: rest, acc =>
    match n with
    | .Const _ => collectAux fuel rest acc
    | .SingleOp _ operand => collectAux fuel (rest ++ [operand]) acc
    | .DoubleOp _ left right => collectAux fuel (rest ++ [left, right]) acc
    | .Group g => collectAux fuel (rest ++ [g]) acc
    | .Identifier c =>
      collectAux fuel rest (if acc.contains c then acc else acc ++ [c])

/-- The identifier list collected by calc_ident_bit_index before sorting:
first-visit breadth-first order, deduplicated. -/
def collectIdents (ast : Node) : List Char := collectAux (nodeSize ast) [ast] []

/-- The enumerate-and-insert loop of calc_ident_bit_index: assign index i
to the i-th element of the sorted identifier list.  The HashMap of the
source is modelled as an association list keyed by the (distinct)
identifier characters. -/
def enumAssoc : Nat → List Char → List (Char × Nat)
  | _, [] => []
  | i, c :: cs => (c, i) :: enumAssoc (i + 1) cs

/-- The ident_bit_index map built by Evaluator::new via
calc_ident_bit_index: collect identifiers breadth-first, sort ascending,
then index in order. -/
def identBitIndex (ast : Node) : List (Char × Nat) :=
  enumAssoc 0 (List.insertionSort (· ≤ ·) (collectIdents ast))

/-- The Evaluator struct of src/evaluator.rs. -/
structure Evaluator where
  ast : Node
  ident_bit_index : List (Char × Nat)
deriving DecidableEq, Repr

/-- Evaluator::new of src/evaluator.rs. -/
def Evaluator.new (ast : Node) : Evaluator := ⟨ast, identBitIndex ast⟩

/-- The two panic sites of src/evaluator.rs: the invalid-operator panic of
evaluate_node, and the unwrap of the ident_bit_index lookup in
get_ident_bit. -/
inductive EvalPanic where
  | invalidOp
  | identNotFound
deriving DecidableEq, Repr

/-- Evaluator::get_ident_bit: look the character up in ident_bit_index
(the unwrap panic becomes the identNotFound error) and test the bit of
pass at the found index. -/
def getIdentBit (m : List (Char × Nat)) (c : Char) (pass : Nat) :
    Except EvalPanic Bool :=
  match List.lookup c m with
  | some index => .ok (decide (pass &&& (1 <<< index) ≠ 0))
  | none => .error .identNotFound

/-- Evaluator::evaluate_node of src/evaluator.rs.  The Rust boolean
operators && and || short-circuit, so the right operand is only evaluated
when the left operand does not decide the result. -/
def evaluateNode (m : List (Char × Nat)) : Node → Nat → Except EvalPanic Bool
  | .Const b, _ => .ok b
  | .SingleOp op operand, pass =>
    match op with
    | .Not =>
      match evaluateNode m operand pass with
      | .ok b => .ok (!b)
      | .error e => .error e
    | _ => .error .invalidOp
  | .DoubleOp op left right, pass =>
    match op with
    | .And =>
      match evaluateNode m left pass with
      | .ok a => if a then evaluateNode m right pass else .ok false
      | .error e => .error e
    | .Or =>
      match evaluateNode m left pass with
      | .ok a => if a then .ok true else evaluateNode m right pass
      | .error e => .error e
    | .Xor =>
      match evaluateNode m left pass with
      | .ok a =>
        match evaluateNode m right pass with
        | .ok b => .ok (Bool.xor a b)
        | .error e => .error e
      | .error e => .error e
    | _ => .error .invalidOp
  | .Group g, pass => evaluateNode m g pass
  | .Identifier ident, pass => getIdentBit m ident pass

/-- Evaluator::evaluate of src/evaluator.rs. -/
def Evaluator.evaluate (e : Evaluator) (pass : Nat) : Except EvalPanic Bool :=
  evaluateNode e.ident_bit_index e.ast pass

/-- The EvaluatorPassResult struct of src/evaluator.rs; the result field
carries the panic value when evaluation panics. -/
structure EvaluatorPassResult where
  result : Except EvalPanic Bool
  ident_states : List (Char × Bool)
deriving DecidableEq, Repr

/-- Evaluator::evaluate_iter of src/evaluator.rs: enumerate pass from 0 to
2 ^ identifier count minus one and produce one row per pass. -/
def Evaluator.evaluateIter (e : Evaluator) : List EvaluatorPassResult :=
  (List.range (1 <<< e.ident_bit_index.length)).map fun pass =>
    ⟨e.evaluate pass,
      e.ident_bit_index.map fun ci => (ci.1, decide (pass &&& (1 <<< ci.2) ≠ 0))⟩

/-- count_nodes of src/ast.rs. -/
def count_nodes : Node → Nat
  | .Const _ => 1
  | .Identifier _ => 1
  | .SingleOp _ operand => 1 + count_nodes operand
  | .DoubleOp _ left right => 1 + count_nodes left + count_nodes right
  | .Group g => count_nodes g

/-! ## Identifier occurrence and collection lemmas -/

/-- The identifier characters occurring in a node tree, in structural
order.  Used to state set-level properties of the breadth-first
collection of calc_ident_bit_index. -/
def identsOf : Node → List Char
  | .Const _ => []
  | .Identifier c => [c]
  | .SingleOp _ operand => identsOf operand
  | .DoubleOp _ left right => identsOf left ++ identsOf right
  | .Group g => identsOf g

/-- The sorted, deduplicated identifier list underlying ident_bit_index. -/
def sortedIdents (ast : Node) : List Char :=
  List.insertionSort (· ≤ ·) (collectIdents ast)

/-- Tokens of an operator chain continuation: op d1 op d2 ... op dn. -/
def chainRest (op : Token) : List Char → List Token
  | [] => []
  | d :: cs => op :: Token.Identifier d :: chainRest op cs

/-- Tokens of the chain c op d1 op d2 ... op dn. -/
def chainToks (op : Token) (c : Char) (cs : List Char) : List Token :=
  Token.Identifier c :: chainRest op cs

/-- The left-leaning DoubleOp chain ((c op d1) op d2) ... op dn. -/
def leftChain (op : Token) (c : Char) (cs : List Char) : Node :=
  cs.foldl (fun l d => Node.DoubleOp op l (Node.Identifier d)) (Node.Identifier c)

/-- Modelled from the spec for comparison: the diagnostic format the spec
asserts, with the reported position n equal to the zero-based character
index of the offending character and a caret line of n spaces. -/
def claimedInvalidCharMsg (src : String) (c : Char) (k : Nat) : String :=
  "Invalid character " ++ String.singleton quoteChar ++ String.singleton c
    ++ String.singleton quoteChar ++ " at pos " ++ toString k
    ++ "\n\n" ++ src ++ "\n" ++ String.mk (List.replicate k ' ') ++ "^^^" ++ "\n"

theorem nodeSize_pos (n : Node) : 1 ≤ nodeSize n := by
  cases n <;> (simp [nodeSize]; try omega)

theorem queueSize_nil : queueSize [] = 0 := rfl

theorem queueSize_cons (n : Node) (q : List Node) :
    queueSize (n :: q) = nodeSize n + queueSize q := by
  simp [queueSize]

theorem queueSize_append (q l : List Node) :
    queueSize (q ++ l) = queueSize q + queueSize l := by
  simp [queueSize]

theorem queueSize_eq_zero {q : List Node} (h : queueSize q = 0) : q = [] := by
  cases q with
  | nil => rfl
  | cons n rest =>
    exfalso
    have h1 := nodeSize_pos n
    have h2 : queueSize (n :: rest) = nodeSize n + queueSize rest := queueSize_cons n rest
    omega

theorem identsOf_exists_mem_cons {P : Node → Prop} (n : Node) (q : List Node) :
    (∃ m, m ∈ n :: q ∧ P m) ↔ P n ∨ ∃ m, m ∈ q ∧ P m := by
  constructor
  · rintro ⟨m, hm, hPm⟩
    rcases List.mem_cons.mp hm with h | h
    · exact Or.inl (h ▸ hPm)
    · exact Or.inr ⟨m, h, hPm⟩
  · rintro (h | ⟨m, hm, hPm⟩)
    · exact ⟨n, List.mem_cons_self n q, h⟩
    · exact ⟨m, List.mem_cons_of_mem n hm, hPm⟩

theorem identsOf_exists_mem_append {P : Node → Prop} (q l : List Node) :
    (∃ m, m ∈ q ++ l ∧ P m) ↔ (∃ m, m ∈ q ∧ P m) ∨ ∃ m, m ∈ l ∧ P m := by
  constructor
  · rintro ⟨m, hm, hPm⟩
    rcases List.mem_append.mp hm with h | h
    · exact Or.inl ⟨m, h, hPm⟩
    · exact Or.inr ⟨m, h, hPm⟩
  · rintro (⟨m, hm, hPm⟩ | ⟨m, hm, hPm⟩)
    · exact ⟨m, List.mem_append_left _ hm, hPm⟩
    · exact ⟨m, List.mem_append_right _ hm, hPm⟩

theorem identsOf_exists_mem_nil {P : Node → Prop} :
    (∃ m, m ∈ ([] : List Node) ∧ P m) ↔ False := by simp

theorem mem_collectAux (x : Char) :
    ∀ (fuel : Nat) (q : List Node) (acc : List Char), queueSize q ≤ fuel →
      (x ∈ collectAux fuel q acc ↔ x ∈ acc ∨ ∃ n, n ∈ q ∧ x ∈ identsOf n) := by
  intro fuel
  induction fuel with
  | zero =>
    intro q acc h
    have hq : q = [] := queueSize_eq_zero (Nat.le_zero.mp h)
    subst hq
    simp [collectAux]
  | succ f ih =>
    intro q acc h
    cases q with
    | nil => simp [collectAux]
    | cons n rest =>
      rw [queueSize_cons] at h
      cases n with
      | Const b =>
        have h' : queueSize rest ≤ f := by
          have := nodeSize_pos (Node.Const b); omega
        rw [show collectAux (f + 1) (Node.Const b :: rest) acc
            = collectAux f rest acc from rfl, ih rest acc h',
          identsOf_exists_mem_cons]
        simp only [identsOf, List.not_mem_nil, false_or]
      | Identifier c =>
        have h' : queueSize rest ≤ f := by
          have := nodeSize_pos (Node.Identifier c); omega
        rw [show collectAux (f + 1) (Node.Identifier c :: rest) acc
            = collectAux f rest (if acc.contains c then acc else acc ++ [c]) from rfl,
          ih _ _ h', identsOf_exists_mem_cons]
        simp only [identsOf, List.mem_singleton]
        by_cases hc : c ∈ acc
        · have hcon : acc.contains c = true := by simpa using hc
          rw [if_pos hcon]
          constructor
          · tauto
          · rintro (hx | hx | hrest)
            · exact Or.inl hx
            · exact Or.inl (hx ▸ hc)
            · exact Or.inr hrest
        · have hcon : ¬ acc.contains c = true := by simpa using hc
          rw [if_neg hcon]
          simp only [List.mem_append, List.mem_singleton]
          tauto
      | SingleOp op operand =>
        have h' : queueSize (rest ++ [operand]) ≤ f := by
          simp only [queueSize_append, queueSize_cons, queueSize_nil, nodeSize] at h ⊢
          omega
        rw [show collectAux (f + 1) (Node.SingleOp op operand :: rest) acc
            = collectAux f (rest ++ [operand]) acc from rfl, ih _ _ h',
          identsOf_exists_mem_append, identsOf_exists_mem_cons, identsOf_exists_mem_nil,
          identsOf_exists_mem_cons]
        simp only [identsOf]
        aesop

      | DoubleOp op left right =>
        have h' : queueSize (rest ++ [left, right]) ≤ f := by
          simp only [queueSize_append, queueSize_cons, queueSize_nil, nodeSize] at h ⊢
          omega
        rw [show collectAux (f + 1) (Node.DoubleOp op left right :: rest) acc
            = collectAux f (rest ++ [left, right]) acc from rfl, ih _ _ h',
          identsOf_exists_mem_append, identsOf_exists_mem_cons, identsOf_exists_mem_cons,
          identsOf_exists_mem_nil, identsOf_exists_mem_cons]
        simp only [identsOf, List.mem_append]
        aesop
      | Group g =>
        have h' : queueSize (rest ++ [g]) ≤ f := by
          simp only [queueSize_append, queueSize_cons, queueSize_nil, nodeSize] at h ⊢
          omega
        rw [show collectAux (f + 1) (Node.Group g :: rest) acc
            = collectAux f (rest ++ [g]) acc from rfl, ih _ _ h',
          identsOf_exists_mem_append, identsOf_exists_mem_cons, identsOf_exists_mem_nil,
          identsOf_exists_mem_cons]
        simp only [identsOf]
        aesop

theorem nodup_collectAux :
    ∀ (fuel : Nat) (q : List Node) (acc : List Char), acc.Nodup →
      (collectAux fuel q acc).Nodup := by
  intro fuel
  induction fuel with
  | zero => intro q acc h; simpa [collectAux] using h
  | succ f ih =>
    intro q acc h
    cases q with
    | nil => simpa [collectAux] using h
    | cons n rest =>
      cases n with
      | Const b => exact ih rest acc h
      | Identifier c =>
        rw [show collectAux (f + 1) (Node.Identifier c :: rest) acc
            = collectAux f rest (if acc.contains c then acc else acc ++ [c]) from rfl]
        by_cases hc : c ∈ acc
        · have hcon : acc.contains c = true := by simpa using hc
          rw [if_pos hcon]
          exact ih rest acc h
        · have hcon : ¬ acc.contains c = true := by simpa using hc
          rw [if_neg hcon]
          exact ih rest (acc ++ [c]) (by simp [List.nodup_append, h, hc])
      | SingleOp op operand => exact ih (rest ++ [operand]) acc h
      | DoubleOp op left right => exact ih (rest ++ [left, right]) acc h
      | Group g => exact ih (rest ++ [g]) acc h

theorem mem_collectIdents (x : Char) (ast : Node) :
    x ∈ collectIdents ast ↔ x ∈ identsOf ast := by
  rw [collectIdents, mem_collectAux x (nodeSize ast) [ast] []
    (by simp [queueSize_cons, queueSize_nil])]
  simp

theorem nodup_collectIdents (ast : Node) : (collectIdents ast).Nodup :=
  nodup_collectAux (nodeSize ast) [ast] [] List.nodup_nil

/-! ## Lemmas about the sorted identifier index -/

theorem sortedIdents_sorted (ast : Node) :
    List.Sorted (· ≤ ·) (sortedIdents ast) :=
  List.sorted_insertionSort _ _

theorem sortedIdents_nodup (ast : Node) : (sortedIdents ast).Nodup :=
  (List.perm_insertionSort _ _).nodup_iff.mpr (nodup_collectIdents ast)

theorem mem_sortedIdents (x : Char) (ast : Node) :
    x ∈ sortedIdents ast ↔ x ∈ identsOf ast := by
  rw [sortedIdents, (List.perm_insertionSort _ _).mem_iff, mem_collectIdents]

theorem sortedIdents_sorted_lt (ast : Node) :
    List.Sorted (· < ·) (sortedIdents ast) :=
  List.Sorted.lt_of_le (sortedIdents_sorted ast) (sortedIdents_nodup ast)

theorem sortedIdents_eq_of_same_idents {t1 t2 : Node}
    (h : ∀ c : Char, c ∈ identsOf t1 ↔ c ∈ identsOf t2) :
    sortedIdents t1 = sortedIdents t2 := by
  refine List.eq_of_perm_of_sorted ?_ (sortedIdents_sorted t1) (sortedIdents_sorted t2)
  refine (List.perm_ext_iff_of_nodup (sortedIdents_nodup t1) (sortedIdents_nodup t2)).mpr ?_
  intro a
  rw [mem_sortedIdents, mem_sortedIdents]
  exact h a

theorem identBitIndex_eq_enumAssoc (ast : Node) :
    identBitIndex ast = enumAssoc 0 (sortedIdents ast) := rfl

theorem enumAssoc_keys : ∀ (i : Nat) (l : List Char),
    (enumAssoc i l).map Prod.fst = l := by
  intro i l
  induction l generalizing i with
  | nil => rfl
  | cons c cs ih => simp [enumAssoc, ih]

theorem enumAssoc_length : ∀ (i : Nat) (l : List Char),
    (enumAssoc i l).length = l.length := by
  intro i l
  induction l generalizing i with
  | nil => rfl
  | cons c cs ih => simp [enumAssoc, ih]

theorem lookup_enumAssoc_of_mem {c : Char} : ∀ {l : List Char} (i : Nat), c ∈ l →
    ∃ j, List.lookup c (enumAssoc i l) = some j := by
  intro l
  induction l with
  | nil => intro i h; exact absurd h (List.not_mem_nil c)
  | cons d cs ih =>
    intro i h
    by_cases hcd : c = d
    · exact ⟨i, by simp [enumAssoc, List.lookup_cons, hcd]⟩
    · have hm : c ∈ cs := by
        rcases List.mem_cons.mp h with h1 | h1
        · exact absurd h1 hcd
        · exact h1
      obtain ⟨j, hj⟩ := ih (i + 1) hm
      refine ⟨j, ?_⟩
      have hb : (c == d) = false := beq_eq_false_iff_ne.mpr hcd
      simp [enumAssoc, List.lookup_cons, hb, hj]

theorem lookup_enumAssoc_rank {c : Char} : ∀ {l : List Char} {i j : Nat},
    List.lookup c (enumAssoc i l) = some j → i ≤ j ∧ l.get? (j - i) = some c := by
  intro l
  induction l with
  | nil => intro i j h; simp [enumAssoc] at h
  | cons d cs ih =>
    intro i j h
    by_cases hcd : c = d
    · have : j = i := by
        simp [enumAssoc, List.lookup_cons, hcd] at h
        omega
      subst this
      simp [hcd]
    · have hb : (c == d) = false := beq_eq_false_iff_ne.mpr hcd
      rw [show enumAssoc i (d :: cs) = (d, i) :: enumAssoc (i + 1) cs from rfl,
        List.lookup_cons] at h
      rw [hb] at h
      obtain ⟨h1, h2⟩ := ih h
      refine ⟨by omega, ?_⟩
      have : j - i = (j - (i + 1)) + 1 := by omega
      rw [this]
      simpa using h2

/-! ## Evaluation lemmas -/

theorem identBitIndex_length (ast : Node) :
    (identBitIndex ast).length = (collectIdents ast).length := by
  rw [identBitIndex_eq_enumAssoc, enumAssoc_length]
  exact (List.perm_insertionSort _ _).length_eq

theorem identsOf_eq_nil_of_identBitIndex_nil {ast : Node}
    (h : (identBitIndex ast).length = 0) : identsOf ast = [] := by
  rw [identBitIndex_length] at h
  have hcol : collectIdents ast = [] := List.eq_nil_of_length_eq_zero h
  refine List.eq_nil_iff_forall_not_mem.mpr fun c hc => ?_
  have : c ∈ collectIdents ast := (mem_collectIdents c ast).mpr hc
  rw [hcol] at this
  exact List.not_mem_nil c this

theorem evaluateNode_pass_indep (m : List (Char × Nat)) :
    ∀ (n : Node), identsOf n = [] → ∀ (p q : Nat),
      evaluateNode m n p = evaluateNode m n q := by
  intro n
  induction n with
  | Const b => intro _ p q; rfl
  | Identifier c => intro h p q; simp [identsOf] at h
  | SingleOp op operand ih =>
    intro h p q
    have h0 : identsOf operand = [] := h
    cases op
    case Not => simp only [evaluateNode]; rw [ih h0 p q]
    all_goals rfl
  | DoubleOp op left right ihl ihr =>
    intro h p q
    have hl : identsOf left = [] := by
      have := List.append_eq_nil.mp h; exact this.1
    have hr : identsOf right = [] := by
      have := List.append_eq_nil.mp h; exact this.2
    cases op
    case And => simp only [evaluateNode]; rw [ihl hl p q, ihr hr p q]
    case Or => simp only [evaluateNode]; rw [ihl hl p q, ihr hr p q]
    case Xor => simp only [evaluateNode]; rw [ihl hl p q, ihr hr p q]
    all_goals rfl
  | Group g ih =>
    intro h p q
    exact ih h p q

theorem evaluateNode_no_identNotFound (m : List (Char × Nat)) :
    ∀ (n : Node), (∀ c, c ∈ identsOf n → ∃ j, List.lookup c m = some j) →
      ∀ (pass : Nat), evaluateNode m n pass ≠ .error .identNotFound := by
  intro n
  induction n with
  | Const b => intro _ pass; simp [evaluateNode]
  | Identifier c =>
    intro h pass
    obtain ⟨j, hj⟩ := h c (by simp [identsOf])
    simp [evaluateNode, getIdentBit, hj]
  | SingleOp op operand ih =>
    intro h pass
    cases op
    case Not =>
      have hne := ih h pass
      simp only [evaluateNode]
      cases heval : evaluateNode m operand pass with
      | ok b => simp
      | error e => rw [heval] at hne; exact hne
    all_goals simp [evaluateNode]
  | DoubleOp op left right ihl ihr =>
    intro h pass
    have hl : ∀ c, c ∈ identsOf left → ∃ j, List.lookup c m = some j :=
      fun c hc => h c (by simp [identsOf, List.mem_append]; exact Or.inl hc)
    have hr : ∀ c, c ∈ identsOf right → ∃ j, List.lookup c m = some j :=
      fun c hc => h c (by simp [identsOf, List.mem_append]; exact Or.inr hc)
    cases op
    case And =>
      have hnel := ihl hl pass
      simp only [evaluateNode]
      cases hevl : evaluateNode m left pass with
      | ok a =>
        cases a
        · simp
        · simpa using ihr hr pass
      | error e => rw [hevl] at hnel; exact hnel
    case Or =>
      have hnel := ihl hl pass
      simp only [evaluateNode]
      cases hevl : evaluateNode m left pass with
      | ok a =>
        cases a
        · simpa using ihr hr pass
        · simp
      | error e => rw [hevl] at hnel; exact hnel
    case Xor =>
      have hnel := ihl hl pass
      simp only [evaluateNode]
      cases hevl : evaluateNode m left pass with
      | ok a =>
        have hner := ihr hr pass
        cases hevr : evaluateNode m right pass with
        | ok b => simp
        | error e => rw [hevr] at hner; simpa using hner
      | error e => rw [hevl] at hnel; exact hnel
    all_goals simp [evaluateNode]
  | Group g ih =>
    intro h pass
    exact ih h pass

theorem lookup_identBitIndex_of_mem {c : Char} {ast : Node}
    (h : c ∈ identsOf ast) : ∃ j, List.lookup c (identBitIndex ast) = some j := by
  rw [identBitIndex_eq_enumAssoc]
  exact lookup_enumAssoc_of_mem 0 ((mem_sortedIdents c ast).mpr h)

/-! ## Parser lemmas: left-associative chains and precedence -/

theorem chainRest_cons (op : Token) (d : Char) (cs : List Char) :
    chainRest op (d :: cs) = op :: Token.Identifier d :: chainRest op cs := rfl

theorem chainRest_head {op : Token} {cs : List Char} {tok : Token} {r1 : List Token}
    (h : chainRest op cs = tok :: r1) : tok = op := by
  cases cs with
  | nil => exact absurd h (by simp [chainRest])
  | cons d cs => rw [chainRest_cons] at h; exact (List.cons.injEq _ _ _ _ ▸ h).1.symm

theorem parseFactor_ident (pEq : ParserFn) (d : Char) (rest : List Token) :
    parseFactor pEq (Token.Identifier d :: rest) = .ok (Node.Identifier d, rest) := rfl

theorem parseNotLevel_ident (pEq : ParserFn) (d : Char) (rest : List Token) :
    parseNotLevel pEq (Token.Identifier d :: rest) = .ok (Node.Identifier d, rest) := rfl

theorem binOpLoop_pass (op : Token) (sub : ParserFn) (fuel : Nat) (left : Node)
    (rest : List Token) (h : ∀ tok r1, rest = tok :: r1 → tok ≠ op) :
    binOpLoop op sub fuel left rest = .ok (left, rest) := by
  cases fuel with
  | zero => rfl
  | succ f =>
    cases rest with
    | nil => rfl
    | cons tok r1 =>
      simp only [binOpLoop]
      rw [if_neg (h tok r1 rfl)]

theorem binLevel_pass (op : Token) (sub : ParserFn) (t : List Token) (n : Node)
    (rest : List Token) (hsub : sub t = .ok (n, rest))
    (h : ∀ tok r1, rest = tok :: r1 → tok ≠ op) :
    binLevel op sub t = .ok (n, rest) := by
  simp only [binLevel, hsub]
  exact binOpLoop_pass op sub rest.length n rest h

theorem binLevel_of_sub_nil (op : Token) (sub : ParserFn) (t : List Token) (n : Node)
    (hsub : sub t = .ok (n, [])) : binLevel op sub t = .ok (n, []) :=
  binLevel_pass op sub t n [] hsub (by intro tok r1 h; exact absurd h (by simp))

theorem binOpLoop_chain (op : Token) (sub : ParserFn)
    (hsub : ∀ d cs, sub (Token.Identifier d :: chainRest op cs) =
      .ok (Node.Identifier d, chainRest op cs)) :
    ∀ (cs : List Char) (fuel : Nat) (left : Node),
      (chainRest op cs).length ≤ fuel →
      binOpLoop op sub fuel left (chainRest op cs) =
        .ok (cs.foldl (fun l d => Node.DoubleOp op l (Node.Identifier d)) left, []) := by
  intro cs
  induction cs with
  | nil =>
    intro fuel left h
    cases fuel with
    | zero => rfl
    | succ f => rfl
  | cons d cs ih =>
    intro fuel left h
    rw [chainRest_cons] at h ⊢
    cases fuel with
    | zero => simp at h
    | succ f =>
      simp only [binOpLoop, if_true]
      rw [hsub d cs]
      have hlen : (chainRest op cs).length ≤ f := by
        simp only [List.length_cons] at h; omega
      exact ih f (Node.DoubleOp op left (Node.Identifier d)) hlen

theorem chainRest_head_ne (op op' : Token) (cs : List Char) (hne : op ≠ op') :
    ∀ tok r1, chainRest op cs = tok :: r1 → tok ≠ op' := by
  intro tok r1 h
  rw [chainRest_head h]
  exact hne

theorem parseAnd_ident (pEq : ParserFn) (d : Char) (rest : List Token)
    (h : ∀ tok r1, rest = tok :: r1 → tok ≠ Token.And) :
    parseAnd pEq (Token.Identifier d :: rest) = .ok (Node.Identifier d, rest) :=
  binLevel_pass _ _ _ _ _ (parseNotLevel_ident pEq d rest) h

theorem parseOr_ident (pEq : ParserFn) (d : Char) (rest : List Token)
    (hAnd : ∀ tok r1, rest = tok :: r1 → tok ≠ Token.And)
    (hOr : ∀ tok r1, rest = tok :: r1 → tok ≠ Token.Or) :
    parseOr pEq (Token.Identifier d :: rest) = .ok (Node.Identifier d, rest) :=
  binLevel_pass _ _ _ _ _ (parseAnd_ident pEq d rest hAnd) hOr

theorem parseXor_ident (pEq : ParserFn) (d : Char) (rest : List Token)
    (hAnd : ∀ tok r1, rest = tok :: r1 → tok ≠ Token.And)
    (hOr : ∀ tok r1, rest = tok :: r1 → tok ≠ Token.Or)
    (hXor : ∀ tok r1, rest = tok :: r1 → tok ≠ Token.Xor) :
    parseXor pEq (Token.Identifier d :: rest) = .ok (Node.Identifier d, rest) :=
  binLevel_pass _ _ _ _ _ (parseOr_ident pEq d rest hAnd hOr) hXor

theorem parseAnd_chain (pEq : ParserFn) (c : Char) (cs : List Char) :
    parseAnd pEq (chainToks Token.And c cs) = .ok (leftChain Token.And c cs, []) := by
  have h := binOpLoop_chain Token.And (parseNotLevel pEq)
    (fun d cs' => parseNotLevel_ident pEq d (chainRest Token.And cs'))
    cs (chainRest Token.And cs).length (Node.Identifier c) (le_refl _)
  simp only [parseAnd, chainToks, binLevel, parseNotLevel_ident]
  exact h

theorem parseOr_chain (pEq : ParserFn) (c : Char) (cs : List Char) :
    parseOr pEq (chainToks Token.Or c cs) = .ok (leftChain Token.Or c cs, []) := by
  have hsub : ∀ d cs', parseAnd pEq (Token.Identifier d :: chainRest Token.Or cs') =
      .ok (Node.Identifier d, chainRest Token.Or cs') :=
    fun d cs' => parseAnd_ident pEq d _
      (chainRest_head_ne Token.Or Token.And cs' (by decide))
  have h := binOpLoop_chain Token.Or (parseAnd pEq) hsub
    cs (chainRest Token.Or cs).length (Node.Identifier c) (le_refl _)
  simp only [parseOr, chainToks, binLevel, hsub c cs]
  exact h

theorem parseXor_chain (pEq : ParserFn) (c : Char) (cs : List Char) :
    parseXor pEq (chainToks Token.Xor c cs) = .ok (leftChain Token.Xor c cs, []) := by
  have hsub : ∀ d cs', parseOr pEq (Token.Identifier d :: chainRest Token.Xor cs') =
      .ok (Node.Identifier d, chainRest Token.Xor cs') :=
    fun d cs' => parseOr_ident pEq d _
      (chainRest_head_ne Token.Xor Token.And cs' (by decide))
      (chainRest_head_ne Token.Xor Token.Or cs' (by decide))
  have h := binOpLoop_chain Token.Xor (parseOr pEq) hsub
    cs (chainRest Token.Xor cs).length (Node.Identifier c) (le_refl _)
  simp only [parseXor, chainToks, binLevel, hsub c cs]
  exact h

theorem parseEqLevel_chain (pEq : ParserFn) (c : Char) (cs : List Char) :
    parseEqLevel pEq (chainToks Token.Equal c cs) =
      .ok (leftChain Token.Equal c cs, []) := by
  have hsub : ∀ d cs', parseXor pEq (Token.Identifier d :: chainRest Token.Equal cs') =
      .ok (Node.Identifier d, chainRest Token.Equal cs') :=
    fun d cs' => parseXor_ident pEq d _
      (chainRest_head_ne Token.Equal Token.And cs' (by decide))
      (chainRest_head_ne Token.Equal Token.Or cs' (by decide))
      (chainRest_head_ne Token.Equal Token.Xor cs' (by decide))
  have h := binOpLoop_chain Token.Equal (parseXor pEq) hsub
    cs (chainRest Token.Equal cs).length (Node.Identifier c) (le_refl _)
  simp only [parseEqLevel, chainToks, binLevel, hsub c cs]
  exact h

theorem Parser_parse_of_level {toks : List Token} {n : Node}
    (h : ∀ pEq : ParserFn, parseEqLevel pEq toks = .ok (n, [])) :
    Parser.parse toks = .ok n := by
  show (match parseEqFuel (toks.length + 1) toks with
    | Except.ok (m, _) => Except.ok m
    | Except.error e => Except.error e) = Except.ok n
  rw [show parseEqFuel (toks.length + 1) toks
      = parseEqLevel (parseEqFuel toks.length) toks from rfl, h]

theorem parse_chain_and (c : Char) (cs : List Char) :
    Parser.parse (chainToks Token.And c cs) = .ok (leftChain Token.And c cs) := by
  apply Parser_parse_of_level
  intro pEq
  have h1 := parseAnd_chain pEq c cs
  have h2 : parseOr pEq (chainToks Token.And c cs) =
      .ok (leftChain Token.And c cs, []) := binLevel_of_sub_nil _ _ _ _ h1
  have h3 : parseXor pEq (chainToks Token.And c cs) =
      .ok (leftChain Token.And c cs, []) := binLevel_of_sub_nil _ _ _ _ h2
  exact binLevel_of_sub_nil _ _ _ _ h3

theorem parse_chain_or (c : Char) (cs : List Char) :
    Parser.parse (chainToks Token.Or c cs) = .ok (leftChain Token.Or c cs) := by
  apply Parser_parse_of_level
  intro pEq
  have h1 := parseOr_chain pEq c cs
  have h2 : parseXor pEq (chainToks Token.Or c cs) =
      .ok (leftChain Token.Or c cs, []) := binLevel_of_sub_nil _ _ _ _ h1
  exact binLevel_of_sub_nil _ _ _ _ h2

theorem parse_chain_xor (c : Char) (cs : List Char) :
    Parser.parse (chainToks Token.Xor c cs) = .ok (leftChain Token.Xor c cs) := by
  apply Parser_parse_of_level
  intro pEq
  have h1 := parseXor_chain pEq c cs
  exact binLevel_of_sub_nil _ _ _ _ h1

theorem parse_chain_eq (c : Char) (cs : List Char) :
    Parser.parse (chainToks Token.Equal c cs) = .ok (leftChain Token.Equal c cs) := by
  apply Parser_parse_of_level
  intro pEq
  exact parseEqLevel_chain pEq c cs

/-! ## Claim theorems -/

/-- Claim C1: the claim says evaluating a DoubleOp with op EQUAL returns
the XNOR of the operands and is not a fatal error, as the test
test_evaluator_equals of src/tests.rs also asserts; the code instead hits
the invalid-operator panic of evaluate_node, whose match on the operator
covers only AND, OR and XOR.  This theorem exhibits the divergence: for
every pass, evaluation of the EQUAL node ends in the invalid-operator
panic. -/
theorem c1_equal_node_evaluation_panics :
    ∀ pass : Nat,
      (Evaluator.new (Node.DoubleOp Token.Equal (Node.Identifier 'a')
        (Node.Identifier 'b'))).evaluate pass = .error EvalPanic.invalidOp :=
  fun _ => rfl

/-- Claim C2 counterexample: the claim says Parser::parse returns Ok only
when no tokens are left over, but on the token sequence of the source
text a b it returns Ok(Identifier a), leaving the second token unread. -/
theorem c2_counterexample_trailing_tokens_accepted :
    Parser.parse [Token.Identifier 'a', Token.Identifier 'b'] =
      .ok (Node.Identifier 'a') := by decide

/-- Claim C2 amended: Parser::parse performs no leftover-token check; it
parses a prefix of the token sequence and returns its AST, ignoring
trailing tokens, as on the token sequences of a b and of a followed by a
stray closing parenthesis. -/
theorem c2_amended_no_leftover_check :
    Parser.parse [Token.Identifier 'a', Token.Identifier 'b'] = .ok (Node.Identifier 'a')
    ∧ Parser.parse [Token.Identifier 'a', Token.GroupClose] =
        .ok (Node.Identifier 'a') := by decide

/-- Claim C3 counterexample: the claim says the token sequence of the
source text with two exclamation marks before an identifier parses to a
doubly nested SingleOp; it does not, because parse_not hands the operand
position to parse_factor, which rejects a NOT token. -/
theorem c3_counterexample_double_negation_rejected :
    Parser.parse [Token.Not, Token.Not, Token.Identifier 'a'] ≠
      .ok (Node.SingleOp Token.Not (Node.SingleOp Token.Not (Node.Identifier 'a'))) := by
  decide

/-- Claim C3 amended: parsing a doubly negated expression fails with a
ParseError: the operand position of a NOT is parse_factor, which cannot
match another NOT token, so nested negation is rejected. -/
theorem c3_amended_double_negation_is_parse_error :
    ∃ e : String, Parser.parse [Token.Not, Token.Not, Token.Identifier 'a'] =
      .error e := ⟨_, rfl⟩

/-- Claim C4 counterexample: on the one-character source consisting of a
question mark (offending character at zero-based index 0) the tokenizer
returns the diagnostic with reported position 2, not the claimed
character-index position 0, so the error string differs from the
claimed format. -/
theorem c4_counterexample_reported_position :
    tokenize "?" true = .error (.err (invalidCharMsg "?" '?' 0))
    ∧ invalidCharMsg "?" '?' 0 ≠ claimedInvalidCharMsg "?" '?' 0 := by
  constructor
  · decide
  · decide

/-- Claim C4 amended: when tokenize enters its default arm on the
character c at zero-based character index k and the final character of
the source (the last character of the remaining suffix) is a single
UTF-8 byte, the rejection error string is exactly invalidCharMsg src c k,
that is, the reported position is k + 2 (the already-incremented index
plus one) and the caret line holds k spaces (two fewer than the reported
position), followed by the three-character marker; when that final
character is multi-byte, the byte slice inside get_char_slice panics
before any diagnostic is built. -/
theorem c4_amended_diagnostic_format :
    ∀ (src : String) (allowIds : Bool) (fuel : Nat) (c : Char) (rest : List Char) (k : Nat),
      c ≠ ' ' → c ≠ '(' → c ≠ ')' → c ≠ '&' → c ≠ '|' → c ≠ '^' → c ≠ '!' → c ≠ '=' →
      c ≠ '1' → c ≠ '0' →
      ((rest.getLastD c).utf8Size = 1 →
        ¬ ("true".toList.isPrefixOf (c :: rest) = true) →
        ¬ ("false".toList.isPrefixOf (c :: rest) = true) →
        ¬ ((validIdentifiers.contains c && allowIds) = true) →
        tokenizeGo src allowIds (fuel + 1) (c :: rest) k =
          .error (.err (invalidCharMsg src c k)))
      ∧ ((rest.getLastD c).utf8Size ≠ 1 →
        tokenizeGo src allowIds (fuel + 1) (c :: rest) k =
          .error .charBoundaryPanic) := by
  intro src allowIds fuel c rest k h1 h2 h3 h4 h5 h6 h7 h8 h9 h10
  constructor
  · intro hb h11 h12 h13
    simp only [tokenizeGo]
    rw [if_neg h1, if_neg h2, if_neg h3, if_neg h4, if_neg h5, if_neg h6, if_neg h7,
      if_neg h8, if_neg h9, if_neg h10, if_neg (fun hc => hc hb), if_neg h11,
      if_neg h12, if_neg h13]
  · intro hb
    simp only [tokenizeGo]
    rw [if_neg h1, if_neg h2, if_neg h3, if_neg h4, if_neg h5, if_neg h6, if_neg h7,
      if_neg h8, if_neg h9, if_neg h10, if_pos hb]

/-- Claim C4 witness: the amended theorem applied at the question-mark
source for the diagnostic branch, and at a source whose final character
is the two-byte letter e-acute for the panic branch. -/
theorem c4_amended_diagnostic_format_witness :
    tokenizeGo "?" true 1 ['?'] 0 = .error (.err (invalidCharMsg "?" '?' 0))
    ∧ tokenizeGo "?é" true 2 ['?', 'é'] 0 = .error .charBoundaryPanic :=
  ⟨(c4_amended_diagnostic_format "?" true 0 '?' [] 0 (by decide) (by decide) (by decide)
      (by decide) (by decide) (by decide) (by decide) (by decide) (by decide)
      (by decide)).1 (by decide) (by decide) (by decide) (by decide),
    (c4_amended_diagnostic_format "?é" true 1 '?' ['é'] 0 (by decide) (by decide)
      (by decide) (by decide) (by decide) (by decide) (by decide) (by decide)
      (by decide) (by decide)).2 (by decide)⟩

/-- Claim C5: evaluate_iter yields exactly 2 to the power of the number of
distinct identifiers rows, the i-th row being the evaluation at pass i
(ascending enumeration from 0), and for zero identifiers it yields exactly
one row whose result is the pass-independent constant value of the
expression. -/
theorem c5_truth_table_row_count_and_order :
    ∀ ast : Node,
      ((Evaluator.new ast).evaluateIter).length =
        2 ^ (Evaluator.new ast).ident_bit_index.length
      ∧ (∀ i : Nat, i < 2 ^ (Evaluator.new ast).ident_bit_index.length →
          (((Evaluator.new ast).evaluateIter).get? i).map EvaluatorPassResult.result
            = some ((Evaluator.new ast).evaluate i))
      ∧ ((Evaluator.new ast).ident_bit_index.length = 0 →
          ((Evaluator.new ast).evaluateIter).length = 1
          ∧ ∀ pass : Nat, (Evaluator.new ast).evaluate pass =
              (Evaluator.new ast).evaluate 0) := by
  intro ast
  have hlen : ((Evaluator.new ast).evaluateIter).length =
      2 ^ (Evaluator.new ast).ident_bit_index.length := by
    simp [Evaluator.evaluateIter, Nat.one_shiftLeft]
  refine ⟨hlen, ?_, ?_⟩
  · intro i hi
    rw [Evaluator.evaluateIter, List.get?_map,
      List.get?_range (by rwa [Nat.one_shiftLeft])]
    rfl
  · intro h0
    refine ⟨by rw [hlen, h0]; rfl, ?_⟩
    intro pass
    have hnil : identsOf ast = [] := identsOf_eq_nil_of_identBitIndex_nil h0
    exact evaluateNode_pass_indep (identBitIndex ast) ast hnil pass 0

/-- Claim C5 witness: the theorem applied to a constant expression with
zero identifiers. -/
theorem c5_truth_table_witness :
    (((Evaluator.new (Node.Group (Node.Const true))).evaluateIter).get? 0).map
        EvaluatorPassResult.result
      = some ((Evaluator.new (Node.Group (Node.Const true))).evaluate 0)
    ∧ (Evaluator.new (Node.Group (Node.Const true))).evaluate 7 =
        (Evaluator.new (Node.Group (Node.Const true))).evaluate 0 :=
  ⟨(c5_truth_table_row_count_and_order (Node.Group (Node.Const true))).2.1 0 (by decide),
    ((c5_truth_table_row_count_and_order (Node.Group (Node.Const true))).2.2
      (by decide)).2 7⟩

/-- Claim C6: the identifier-to-bit-index map is canonical: its keys are
strictly ascending, bit index j is assigned to the j-th distinct
identifier character in ascending order, and any two ASTs with the same
set of identifier characters receive the identical map, independently of
the order identifiers appear in. -/
theorem c6_canonical_identifier_index :
    ∀ t1 t2 : Node,
      List.Sorted (· < ·) ((identBitIndex t1).map Prod.fst)
      ∧ ((∀ c : Char, c ∈ identsOf t1 ↔ c ∈ identsOf t2) →
          identBitIndex t1 = identBitIndex t2)
      ∧ (∀ (c : Char) (j : Nat), List.lookup c (identBitIndex t1) = some j →
          ((identBitIndex t1).map Prod.fst).get? j = some c) := by
  intro t1 t2
  refine ⟨?_, ?_, ?_⟩
  · rw [identBitIndex_eq_enumAssoc, enumAssoc_keys]
    exact sortedIdents_sorted_lt t1
  · intro h
    rw [identBitIndex_eq_enumAssoc, identBitIndex_eq_enumAssoc,
      sortedIdents_eq_of_same_idents h]
  · intro c j h
    rw [identBitIndex_eq_enumAssoc] at h
    obtain ⟨h1, h2⟩ := lookup_enumAssoc_rank h
    rw [identBitIndex_eq_enumAssoc, enumAssoc_keys]
    simpa using h2

/-- Claim C6 witness: two ASTs containing the identifiers a and b in
opposite first-appearance order receive the identical bit index map, and
the bit index 0 of a names the 0-th ascending key. -/
theorem c6_canonical_identifier_index_witness :
    identBitIndex (Node.DoubleOp Token.And (Node.Identifier 'b') (Node.Identifier 'a'))
      = identBitIndex (Node.DoubleOp Token.Or (Node.Identifier 'a') (Node.Identifier 'b'))
    ∧ ((identBitIndex (Node.DoubleOp Token.And (Node.Identifier 'b')
        (Node.Identifier 'a'))).map Prod.fst).get? 0 = some 'a' :=
  ⟨(c6_canonical_identifier_index
      (Node.DoubleOp Token.And (Node.Identifier 'b') (Node.Identifier 'a'))
      (Node.DoubleOp Token.Or (Node.Identifier 'a') (Node.Identifier 'b'))).2.1
      (by intro c; simp [identsOf]; tauto),
    (c6_canonical_identifier_index
      (Node.DoubleOp Token.And (Node.Identifier 'b') (Node.Identifier 'a'))
      (Node.DoubleOp Token.Or (Node.Identifier 'a') (Node.Identifier 'b'))).2.2 'a' 0
      (by decide)⟩

/-- Claim C7: the parser folds every chain of equal-precedence binary
applications into a left-leaning DoubleOp chain (proved for arbitrary
chains of each of the four binary operators), and the precedence order is
equality below xor below or below and below not, witnessed on adjacent
precedence pairs. -/
theorem c7_precedence_and_left_associativity :
    (∀ (c : Char) (cs : List Char),
      Parser.parse (chainToks Token.And c cs) = .ok (leftChain Token.And c cs)
      ∧ Parser.parse (chainToks Token.Or c cs) = .ok (leftChain Token.Or c cs)
      ∧ Parser.parse (chainToks Token.Xor c cs) = .ok (leftChain Token.Xor c cs)
      ∧ Parser.parse (chainToks Token.Equal c cs) = .ok (leftChain Token.Equal c cs))
    ∧ Parser.parse [Token.Identifier 'a', Token.And, Token.Identifier 'b', Token.And,
        Token.Identifier 'c'] =
      .ok (Node.DoubleOp Token.And
        (Node.DoubleOp Token.And (Node.Identifier 'a') (Node.Identifier 'b'))
        (Node.Identifier 'c'))
    ∧ Parser.parse [Token.Identifier 'a', Token.Or, Token.Identifier 'b', Token.And,
        Token.Identifier 'c'] =
      .ok (Node.DoubleOp Token.Or (Node.Identifier 'a')
        (Node.DoubleOp Token.And (Node.Identifier 'b') (Node.Identifier 'c')))
    ∧ Parser.parse [Token.Identifier 'a', Token.Xor, Token.Identifier 'b', Token.Or,
        Token.Identifier 'c'] =
      .ok (Node.DoubleOp Token.Xor (Node.Identifier 'a')
        (Node.DoubleOp Token.Or (Node.Identifier 'b') (Node.Identifier 'c')))
    ∧ Parser.parse [Token.Identifier 'a', Token.Equal, Token.Identifier 'b', Token.Xor,
        Token.Identifier 'c'] =
      .ok (Node.DoubleOp Token.Equal (Node.Identifier 'a')
        (Node.DoubleOp Token.Xor (Node.Identifier 'b') (Node.Identifier 'c')))
    ∧ Parser.parse [Token.Not, Token.Identifier 'a', Token.And, Token.Identifier 'b'] =
      .ok (Node.DoubleOp Token.And (Node.SingleOp Token.Not (Node.Identifier 'a'))
        (Node.Identifier 'b')) := by
  refine ⟨fun c cs => ⟨parse_chain_and c cs, parse_chain_or c cs, parse_chain_xor c cs,
    parse_chain_eq c cs⟩, ?_, ?_, ?_, ?_, ?_⟩ <;> decide

/-- Claim C8: Group nodes are evaluation-transparent: under any identifier
map, evaluating Group(n) equals evaluating n, and the same holds for the
full Evaluator pipeline where each side builds its own identifier map. -/
theorem c8_group_evaluation_transparent :
    ∀ (n : Node) (pass : Nat) (m : List (Char × Nat)),
      evaluateNode m (Node.Group n) pass = evaluateNode m n pass
      ∧ (Evaluator.new (Node.Group n)).evaluate pass = (Evaluator.new n).evaluate pass := by
  intro n pass m
  refine ⟨rfl, ?_⟩
  have hcol : collectIdents (Node.Group n) = collectIdents n := by
    show collectAux (nodeSize (Node.Group n)) [Node.Group n] []
      = collectAux (nodeSize n) [n] []
    rw [show nodeSize (Node.Group n) = nodeSize n + 1 from by simp [nodeSize]; omega]
    rfl
  show evaluateNode (identBitIndex (Node.Group n)) (Node.Group n) pass
    = evaluateNode (identBitIndex n) n pass
  rw [show identBitIndex (Node.Group n) = identBitIndex n from by
    unfold identBitIndex; rw [hcol]]
  rfl

/-- Claim C9: count_nodes does not count Group wrappers, so a node count
is unchanged by wrapping in parentheses. -/
theorem c9_count_nodes_group_transparent :
    ∀ n : Node, count_nodes (Node.Group n) = count_nodes n := fun _ => rfl

/-- Claim C10: with the Evaluator built by Evaluator::new from the same
AST it evaluates, the ident_bit_index lookup of get_ident_bit always
succeeds: neither evaluate nor any row of evaluate_iter can end in the
lookup-unwrap panic. -/
theorem c10_ident_lookup_never_fails :
    ∀ (ast : Node) (pass : Nat),
      (Evaluator.new ast).evaluate pass ≠ .error EvalPanic.identNotFound
      ∧ ∀ r : EvaluatorPassResult, r ∈ (Evaluator.new ast).evaluateIter →
          r.result ≠ .error EvalPanic.identNotFound := by
  intro ast pass
  have hmain : ∀ p : Nat,
      evaluateNode (identBitIndex ast) ast p ≠ .error .identNotFound :=
    fun p => evaluateNode_no_identNotFound (identBitIndex ast) ast
      (fun c hc => lookup_identBitIndex_of_mem hc) p
  refine ⟨hmain pass, ?_⟩
  intro r hr
  simp only [Evaluator.evaluateIter, List.mem_map, List.mem_range] at hr
  obtain ⟨p, hp, hr⟩ := hr
  rw [← hr]
  exact hmain p

/-- Claim C10 witness: the theorem applied to the conjunction expression
over a and b at pass 1 and to its first truth-table row. -/
theorem c10_ident_lookup_never_fails_witness :
    (Evaluator.new (Node.DoubleOp Token.And (Node.Identifier 'a')
      (Node.Identifier 'b'))).evaluate 1 ≠ .error EvalPanic.identNotFound
    ∧ (⟨.ok false, [('a', false), ('b', false)]⟩ : EvaluatorPassResult).result ≠
        .error EvalPanic.identNotFound :=
  ⟨(c10_ident_lookup_never_fails (Node.DoubleOp Token.And (Node.Identifier 'a')
      (Node.Identifier 'b')) 1).1,
    (c10_ident_lookup_never_fails (Node.DoubleOp Token.And (Node.Identifier 'a')
      (Node.Identifier 'b')) 1).2 ⟨.ok false, [('a', false), ('b', false)]⟩ (by decide)⟩

